import Mathlib

/-!
Verification of the graph-query core of the ATS_MCP repository
(`graph_functions.py`, with the `/find_path` route of `api_server.py`).

Python strings are modelled as `List Char` (`Str`); `str.strip`, `str.lower`
and the `re.sub(r"[\s\-]+", "_", s)` normalisation of `_norm` are given
explicit executable definitions.  Python dicts/sets are modelled by
association lists and `dedup`-ed lists; membership is all the code ever
relies on.
-/

/-- Python strings, modelled as lists of characters. -/
abbrev Str := List Char

/-- The characters matched by Python's `\s` class (ASCII subset), used by
`str.strip` and `_norm`'s separator collapsing. -/
def isSpaceChar (c : Char) : Bool :=
  c == ' ' || c == '\t' || c == '\n' || c == '\r' || c == '\x0b' || c == '\x0c'

/-- Lower-casing of a single character (`str.lower`, ASCII range; the
repository's data is ASCII). -/
def lowerChar (c : Char) : Char :=
  match c with
  | 'A' => 'a' | 'B' => 'b' | 'C' => 'c' | 'D' => 'd' | 'E' => 'e' | 'F' => 'f'
  | 'G' => 'g' | 'H' => 'h' | 'I' => 'i' | 'J' => 'j' | 'K' => 'k' | 'L' => 'l'
  | 'M' => 'm' | 'N' => 'n' | 'O' => 'o' | 'P' => 'p' | 'Q' => 'q' | 'R' => 'r'
  | 'S' => 's' | 'T' => 't' | 'U' => 'u' | 'V' => 'v' | 'W' => 'w' | 'X' => 'x'
  | 'Y' => 'y' | 'Z' => 'z'
  | c => c

/-- `str.lower` on a whole string. -/
def pyLower (s : Str) : Str := s.map lowerChar

/-- `str.strip`: drop whitespace from both ends. -/
def pyStrip (s : Str) : Str :=
  ((s.dropWhile isSpaceChar).reverse.dropWhile isSpaceChar).reverse

/-- Characters collapsed to `_` by `_norm`'s `re.sub(r"[\s\-]+", "_", s)`. -/
def isSepChar (c : Char) : Bool := isSpaceChar c || c == '-'

/-- Replace every maximal run of `[\s\-]` characters by a single underscore.
The boolean flag records whether the previous character was part of such a
run (in which case the `_` has already been emitted). -/
def collapseSep : Bool → Str → Str
  | _, [] => []
  | prevSep, c :: rest =>
    if isSepChar c then
      if prevSep then collapseSep true rest
      else '_' :: collapseSep true rest
    else c :: collapseSep false rest

/-- `_norm` from graph_functions.py (lines 17-22): strip, lowercase, collapse
whitespace/hyphen runs to a single underscore. -/
def pyNorm (s : Str) : Str := collapseSep false (pyLower (pyStrip s))

/-- The string literal `"comp_"` used by the canonical-id checks. -/
def compUnderscore : Str := ['c', 'o', 'm', 'p', '_']

/-- Extraction of a trailing numeric index, `re.search(r"(?:\s|_)(\d+)$", s)`
applied to the normalised string: returns the part before the separator and
the digit group.  The digit group of the leftmost match of this anchored
pattern is exactly the maximal digit suffix of `s`, and the match exists iff
that suffix is nonempty and preceded by a separator character. -/
def splitTrailingIndex (s : Str) : Option (Str × Str) :=
  let rev := s.reverse
  let ds := rev.takeWhile Char.isDigit
  if ds = [] then none
  else
    match rev.dropWhile Char.isDigit with
    | [] => none
    | c :: rest =>
      if isSpaceChar c || c == '_' then some (rest.reverse, ds.reverse)
      else none

/-- A component of the graph document: `{id, instance_name}`. -/
structure Component where
  id : Str
  instance_name : Str
deriving DecidableEq

/-- A connection of the graph document: `{component, wire}`. -/
structure Connection where
  component : Str
  wire : Str
deriving DecidableEq

/-- The loaded graph document. -/
structure GraphData where
  components : List Component
  connections : List Connection
deriving DecidableEq

/-- `COMPONENT_ALIASES` from graph_functions.py (lines 7-14). -/
def COMPONENT_ALIASES : List (Str × Str) :=
  [ ("valve".toList, "Ball_Valve".toList)
  , ("ball_valve".toList, "Ball_Valve".toList)
  , ("boiler".toList, "BOILER".toList)
  , ("pump".toList, "pump".toList)
  , ("3_way_valve".toList, "3_Way_Ball_Valve_T".toList)
  , ("three_way_valve".toList, "3_Way_Ball_Valve_T".toList) ]

/-- `COMPONENT_ALIASES.get(base)`: first (only) entry with the given key. -/
def aliasLookup (base : Str) : Option Str :=
  (COMPONENT_ALIASES.find? (fun kv => kv.1 == base)).map (fun kv => kv.2)

/-- The canonical type for a base: `COMPONENT_ALIASES.get(base)` with the
stripped base itself as default (graph_functions.py lines 55-60; the
`.strip()` applied to the base is a no-op on normalised strings but is kept
faithful to the source). -/
def canonicalOf (b : Str) : Str := (aliasLookup (pyStrip b)).getD (pyStrip b)

/-- The recombined `_norm(f"{canonical}_{idx}")` that the indexed branch of
`resolve_component_id` requires an exact match for (lines 62-68). -/
def indexWanted (b idx : Str) : Str := pyNorm (canonicalOf b ++ '_' :: idx)

/-- The components matched by the no-index unique-prefix branch of
`resolve_component_id` (lines 70-75): those whose normalised
`instance_name` starts with `_norm(canonical + "_")`. -/
def noIndexMatches (graph_data : GraphData) (s : Str) : List Component :=
  graph_data.components.filter
    (fun comp => (pyNorm (canonicalOf s ++ ['_'])).isPrefixOf (pyNorm comp.instance_name))

/-- `resolve_component_id` from graph_functions.py (lines 25-80).
An empty input is falsy (`if not user_input`).  A stripped input whose
lower-casing starts with `comp_` is returned lower-cased without consulting
the graph.  Otherwise: exact normalised instance-name match first; then, if a
trailing numeric index is present, an exact match of the alias-canonicalised
base recombined with the index (no further fallback); otherwise a
unique-prefix match on `canonical ++ "_"`. -/
def resolve_component_id (user_input : Str) (graph_data : GraphData) : Option Str :=
  if user_input = [] then none
  else
    let s_raw := pyStrip user_input
    if compUnderscore.isPrefixOf (pyLower s_raw) then some (pyLower s_raw)
    else
      let s := pyNorm s_raw
      match graph_data.components.find? (fun comp => pyNorm comp.instance_name == s) with
      | some comp => some comp.id
      | none =>
        match splitTrailingIndex s with
        | some (b, idx) =>
          (graph_data.components.find?
              (fun comp => pyNorm comp.instance_name == indexWanted b idx)).map
            (fun comp => comp.id)
        | none =>
          match noIndexMatches graph_data s with
          | [m] => some m.id
          | _ => none

/-- The wires mentioned by the connections, in first-occurrence order: the
keys of the `wire_components` defaultdict of `build_adjacency_graph`
(graph_functions.py lines 112-130). -/
def wireList (g : GraphData) : List Str := (g.connections.map (fun c => c.wire)).dedup

/-- `wire_components[w]`: the set of components sharing wire `w`
(graph_functions.py lines 119-121), as a duplicate-free list. -/
def wire_components (g : GraphData) (w : Str) : List Str :=
  ((g.connections.filter (fun c => c.wire == w)).map (fun c => c.component)).dedup

/-- The ordered pairs inserted by the nested loops of `build_adjacency_graph`
(lines 123-128) for one wire's component set: for every `i < j`, both
`(comps[i], comps[j])` and `(comps[j], comps[i])`. -/
def wirePairs : List Str → List (Str × Str)
  | [] => []
  | c :: rest => rest.map (fun d => (c, d)) ++ rest.map (fun d => (d, c)) ++ wirePairs rest

/-- All adjacency pairs inserted by `build_adjacency_graph` over all wires. -/
def adjacencyPairs (g : GraphData) : List (Str × Str) :=
  ((wireList g).map (fun w => wirePairs (wire_components g w))).flatten

/-- Membership in the adjacency map produced by `build_adjacency_graph`:
`b ∈ adjacency[a]` iff the pair `(a, b)` was inserted by the nested loops
(an absent key has the empty set, so membership is `false` there). -/
def adjacency_mem (g : GraphData) (a b : Str) : Bool :=
  decide ((a, b) ∈ adjacencyPairs g)

/-- The component ids appearing in connections, as a duplicate-free list.
Every value stored in any adjacency set lies in this list. -/
def allComponents (g : GraphData) : List Str :=
  (g.connections.map (fun c => c.component)).dedup

/-- `adjacency.get(current, set())` (line 163): the set of `b` with
`b ∈ adjacency[current]`, as a duplicate-free list. -/
def neighborsOf (g : GraphData) (a : Str) : List Str :=
  (allComponents g).filter (fun b => adjacency_mem g a b)

/-- The shared prologue of `find_path_bfs` (lines 138-150) and
`find_neighbors` (lines 180-185): a string whose lower-casing starts with
`comp_` is lower-cased and used as is (with no strip), anything else goes
through `resolve_component_id`, whose falsy (`None` or empty) result aborts. -/
def resolveEndpoint (x : Str) (g : GraphData) : Option Str :=
  if compUnderscore.isPrefixOf (pyLower x) then some (pyLower x)
  else
    match resolve_component_id x g with
    | some cid => if cid = [] then none else some cid
    | none => none

/-- The inner `for neighbor in neighbors` loop of `find_path_bfs`
(lines 164-170): walk the neighbor list; on meeting the end node return the
discovered path; enqueue and mark unvisited nodes otherwise.  Returns the
found path (if any) together with the updated queue and visited set. -/
def scanNeighbors (e : Str) (path : List Str) :
    List Str → List (Str × List Str) → List Str →
    Option (List Str) × List (Str × List Str) × List Str
  | [], queue, visited => (none, queue, visited)
  | n :: ns, queue, visited =>
    if n = e then (some (path ++ [n]), queue, visited)
    else if n ∈ visited then scanNeighbors e path ns queue visited
    else scanNeighbors e path ns (queue ++ [(n, path ++ [n])]) (visited ++ [n])

/-- The `while queue` loop of `find_path_bfs` (lines 160-172).  The Python
loop needs no fuel (each iteration pops an entry and entries are enqueued at
most once per node); the `fuel` argument is a modelling artifact and any
value at least `queue.length + |unvisited node universe|` yields the loop's
result. -/
def bfsLoop (adj : Str → List Str) (e : Str) :
    Nat → List (Str × List Str) → List Str → Option (List Str)
  | 0, _, _ => none
  | _ + 1, [], _ => none
  | fuel + 1, (current, path) :: queue, visited =>
    match scanNeighbors e path (adj current) queue visited with
    | (some found, _, _) => some found
    | (none, queue', visited') => bfsLoop adj e fuel queue' visited'

/-- `find_path_bfs` from graph_functions.py (lines 133-172): resolve the two
endpoints, return the singleton path when they coincide, otherwise run the
BFS over the adjacency relation of `build_adjacency_graph`. -/
def find_path_bfs (start_component end_component : Str) (g : GraphData) : Option (List Str) :=
  match resolveEndpoint start_component g with
  | none => none
  | some s =>
    match resolveEndpoint end_component g with
    | none => none
    | some e =>
      if s = e then some [s]
      else bfsLoop (neighborsOf g) e ((allComponents g).length + 1) [(s, [s])] [s]

/-- `find_neighbors` from graph_functions.py (lines 175-198): resolve the
reference (empty list on failure), collect the wires of the resolved
component, then the other components on those wires, as a set. -/
def find_neighbors (component_id : Str) (g : GraphData) : List Str :=
  match resolveEndpoint component_id g with
  | none => []
  | some cid =>
    let component_wires :=
      ((g.connections.filter (fun c => c.component == cid)).map (fun c => c.wire)).dedup
    ((g.connections.filter (fun c =>
        component_wires.contains c.wire && c.component != cid)).map
      (fun c => c.component)).dedup

/-- The fixed path-count bound of the all-paths enumeration (`MAX_PATHS`). -/
def MAX_PATHS : Nat := 50

/-- The fixed depth bound of the all-paths enumeration, in components. -/
def MAX_DEPTH : Nat := 20

/-- Modelled from the spec: the depth-first walk over one node's neighbor
set (spec §4.3), skipping nodes already on the current path (so only simple
paths are enumerated) and backtracking — each sibling starts from the same
`path`, only the accumulated `found` list is threaded through.  `visit` is
the recursive visit of one neighbor at the remaining depth. -/
def dfsFold (visit : Str → List Str → List (List Str) → List (List Str))
    (path : List Str) : List Str → List (List Str) → List (List Str)
  | [], found => found
  | nb :: rest, found =>
    if nb ∈ path then dfsFold visit path rest found
    else dfsFold visit path rest (visit nb (path ++ [nb]) found)

/-- Modelled from the spec: `find_all_paths` is imported by api_server.py
(line 10) from `graph_functions` but is absent from graph_functions.py, so
its body is reconstructed from spec §4.3 "All paths (bounded DFS)".
`dfsVisit` visits one node with the simple path leading to it: the
found-paths bound is checked before anything else, a complete path is
recorded on reaching the end node, and a branch is abandoned once extending
it would exceed `MAX_DEPTH` components (`fuel` is the number of components
the path may still grow by). -/
def dfsVisit (adj : Str → List Str) (e : Str) (fuel : Nat) (node : Str)
    (path : List Str) (found : List (List Str)) : List (List Str) :=
  if MAX_PATHS ≤ found.length then found
  else if node = e then found ++ [path]
  else
    match fuel with
    | 0 => found
    | fuel' + 1 =>
      dfsFold (fun nb pth fnd => dfsVisit adj e fuel' nb pth fnd) path (adj node) found

/-- Modelled from the spec: `find_all_paths` (spec §4.3) — both endpoints
resolve via §4.1 first, unresolved endpoints short-circuit to the empty
list; otherwise every simple path of at most `MAX_DEPTH` components is
enumerated depth-first from the start node, stopping at `MAX_PATHS` found
paths. -/
def find_all_paths (start_component end_component : Str) (g : GraphData) : List (List Str) :=
  match resolve_component_id start_component g with
  | none => []
  | some s =>
    match resolve_component_id end_component g with
    | none => []
    | some e => dfsVisit (neighborsOf g) e (MAX_DEPTH - 1) s [s] []

/-- The response fields of the `/find_path` route that the claims mention. -/
structure FindPathResponse where
  success : Bool
  path_count : Nat
  paths : List (List Str)
  truncated : Bool
deriving DecidableEq

/-- The `/find_path` route of api_server.py (lines 144-178): run
`find_all_paths`, report `truncated = len(paths) >= 50`, with the empty
result mapped to a `success = false` envelope. -/
def find_path_route (start_component end_component : Str) (g : GraphData) : FindPathResponse :=
  let paths := find_all_paths start_component end_component g
  let truncated := decide (50 ≤ paths.length)
  if paths = [] then ⟨false, 0, [], false⟩
  else ⟨true, paths.length, paths, truncated⟩

/-- Spec-side predicate: `p` is a path of the derived adjacency relation
from `s` to `e` (start and end inclusive, consecutive components
adjacent). -/
def ValidPath (g : GraphData) (s e : Str) (p : List Str) : Prop :=
  p.head? = some s ∧ p.getLast? = some e ∧
    List.Chain' (fun x y => adjacency_mem g x y = true) p

/-- Spec-side predicate: the canonical id pattern `comp_<digits>`
(case-sensitive form; case-insensitivity is obtained by applying it to the
lower-cased string). -/
def isCanonicalId (s : Str) : Bool :=
  compUnderscore.isPrefixOf s && !(s.drop 5).isEmpty && (s.drop 5).all Char.isDigit

/-- Spec-side reachability: `ReachN adj s n x` holds when some walk of `n`
edges of `adj` leads from `s` to `x`. -/
inductive ReachN (adj : Str → List Str) (s : Str) : Nat → Str → Prop
  | refl : ReachN adj s 0 s
  | step {n y x} : ReachN adj s n y → x ∈ adj y → ReachN adj s (n + 1) x

/-- A small concrete graph document used to witness the theorems: a pump and
a boiler sharing one wire, plus an isolated box component on no wire. -/
def gW : GraphData :=
  { components :=
      [ ⟨"comp_1".toList, "pump_1".toList⟩
      , ⟨"comp_2".toList, "BOILER_1".toList⟩
      , ⟨"comp_3".toList, "box_1".toList⟩ ]
  , connections :=
      [ ⟨"comp_1".toList, "wire_a".toList⟩
      , ⟨"comp_2".toList, "wire_a".toList⟩ ] }

/-- A concrete graph document with two `Ball_Valve` instances, used to
witness ambiguous no-index resolution. -/
def gAmb : GraphData :=
  { components :=
      [ ⟨"comp_1".toList, "Ball_Valve_1".toList⟩
      , ⟨"comp_2".toList, "Ball_Valve_2".toList⟩ ]
  , connections := [] }

/-- A concrete graph document with a four-node cycle, used to witness the
path-search theorems: the wires join 1-2, 2-3, 3-4 and 1-4. -/
def gT : GraphData :=
  { components :=
      [ ⟨"comp_1".toList, "pump_1".toList⟩
      , ⟨"comp_2".toList, "Ball_Valve_1".toList⟩
      , ⟨"comp_3".toList, "Ball_Valve_2".toList⟩
      , ⟨"comp_4".toList, "BOILER_1".toList⟩ ]
  , connections :=
      [ ⟨"comp_1".toList, "w1".toList⟩
      , ⟨"comp_2".toList, "w1".toList⟩
      , ⟨"comp_2".toList, "w2".toList⟩
      , ⟨"comp_3".toList, "w2".toList⟩
      , ⟨"comp_3".toList, "w3".toList⟩
      , ⟨"comp_4".toList, "w3".toList⟩
      , ⟨"comp_1".toList, "w4".toList⟩
      , ⟨"comp_4".toList, "w4".toList⟩ ] }

/-! ### Character and string lemmas -/

theorem lowerChar_isSpace (c : Char) : isSpaceChar (lowerChar c) = isSpaceChar c := by
  unfold lowerChar
  split <;> rfl

theorem isDigit_eq_false_of_isSpaceChar (c : Char) (h : isSpaceChar c = true) :
    c.isDigit = false := by
  simp only [isSpaceChar, Bool.or_eq_true, beq_iff_eq] at h
  rcases h with ((((h | h) | h) | h) | h) | h <;> subst h <;> decide

theorem isSpaceChar_eq_false_of_isDigit (c : Char) (h : c.isDigit = true) :
    isSpaceChar c = false := by
  cases hs : isSpaceChar c with
  | false => rfl
  | true => rw [isDigit_eq_false_of_isSpaceChar c hs] at h; exact absurd h (by simp)

theorem lowerChar_eq_self_of_isDigit (c : Char) (h : c.isDigit = true) : lowerChar c = c := by
  unfold lowerChar
  split <;> first | rfl | exact absurd h (by decide)

theorem comp_underscore_chars :
    ∀ c ∈ compUnderscore, lowerChar c = c ∧ isSpaceChar c = false := by decide

theorem pyStrip_pyLower_comm (s : Str) : pyLower (pyStrip s) = pyStrip (pyLower s) := by
  have hpf : (isSpaceChar ∘ lowerChar) = isSpaceChar := funext lowerChar_isSpace
  unfold pyLower pyStrip
  rw [List.dropWhile_map, hpf, ← List.map_reverse, List.dropWhile_map, hpf, ← List.map_reverse]

theorem isPrefixOf_iff_exists_append {p l : Str} :
    p.isPrefixOf l = true ↔ ∃ t, l = p ++ t := by
  induction p generalizing l with
  | nil => simp [List.isPrefixOf]
  | cons c p ih =>
    cases l with
    | nil => simp [List.isPrefixOf]
    | cons d l =>
      simp only [List.isPrefixOf, Bool.and_eq_true, beq_iff_eq, ih, List.cons_append,
        List.cons.injEq]
      constructor
      · rintro ⟨rfl, t, rfl⟩; exact ⟨t, rfl, rfl⟩
      · rintro ⟨t, rfl, rfl⟩; exact ⟨rfl, t, rfl⟩

theorem dropWhile_eq_self_of_forall (p : Char → Bool) (s : Str)
    (h : ∀ c ∈ s, p c = false) : s.dropWhile p = s := by
  cases s with
  | nil => rfl
  | cons c t => simp [List.dropWhile_cons, h c (by simp)]

theorem dropWhile_eq_self_of_head? (p : Char → Bool) (s : Str)
    (h : ∀ c ∈ s.head?, p c = false) : s.dropWhile p = s := by
  cases s with
  | nil => rfl
  | cons c t => simp [List.dropWhile_cons, h c (by simp)]

theorem pyStrip_eq_self (s : Str) (h : ∀ c ∈ s, isSpaceChar c = false) : pyStrip s = s := by
  unfold pyStrip
  rw [dropWhile_eq_self_of_forall _ _ h,
    dropWhile_eq_self_of_forall _ _ (fun c hc => h c (List.mem_reverse.mp hc)),
    List.reverse_reverse]

theorem pyLower_eq_self (s : Str) (h : ∀ c ∈ s, lowerChar c = c) : pyLower s = s := by
  unfold pyLower
  rw [List.map_congr_left h, List.map_id']

theorem isPrefixOf_pyStrip {p l : Str} (hp : p.isPrefixOf l = true) (hne : p ≠ [])
    (hns : ∀ c ∈ p, isSpaceChar c = false) : p.isPrefixOf (pyStrip l) = true := by
  obtain ⟨t, rfl⟩ := isPrefixOf_iff_exists_append.mp hp
  obtain ⟨c, p', rfl⟩ : ∃ c p', p = c :: p' := by
    cases p with
    | nil => exact absurd rfl hne
    | cons c p' => exact ⟨c, p', rfl⟩
  unfold pyStrip
  have h1 : ((c :: p') ++ t).dropWhile isSpaceChar = (c :: p') ++ t := by
    simp [List.dropWhile_cons, hns c (by simp)]
  rw [h1, List.reverse_append, List.dropWhile_append]
  split_ifs with he
  · have h2 : (c :: p').reverse.dropWhile isSpaceChar = (c :: p').reverse := by
      apply dropWhile_eq_self_of_head?
      intro d hd
      rw [List.head?_reverse] at hd
      exact hns d (List.mem_of_mem_getLast? hd)
    rw [h2, List.reverse_reverse]
    exact isPrefixOf_iff_exists_append.mpr ⟨[], by simp⟩
  · rw [List.reverse_append, List.reverse_reverse]
    exact isPrefixOf_iff_exists_append.mpr ⟨_, rfl⟩

/-! ### Resolution of canonical and comp_-prefixed inputs (C6, C10) -/

theorem pyLower_nil : pyLower ([] : Str) = [] := rfl

theorem isCanonicalId_chars {s : Str} (h : isCanonicalId s = true) :
    ∀ c ∈ s, lowerChar c = c ∧ isSpaceChar c = false := by
  simp only [isCanonicalId, Bool.and_eq_true] at h
  obtain ⟨⟨h1, _⟩, h3⟩ := h
  obtain ⟨t, rfl⟩ := isPrefixOf_iff_exists_append.mp h1
  have ht : (compUnderscore ++ t).drop 5 = t := by simp [compUnderscore]
  rw [ht] at h3
  intro c hc
  rcases List.mem_append.mp hc with hc | hc
  · exact comp_underscore_chars c hc
  · have hd : c.isDigit = true := List.all_eq_true.mp h3 c hc
    exact ⟨lowerChar_eq_self_of_isDigit c hd, isSpaceChar_eq_false_of_isDigit c hd⟩

/-- C6: an input whose lower-casing matches the canonical id pattern
`comp_<digits>` is resolved to its lower-cased form, identically for every
graph (the graph is not consulted); in particular resolution is the
identity, up to case normalisation, on canonical ids. -/
theorem resolve_canonical_id (g g' : GraphData) (input : Str)
    (h : isCanonicalId (pyLower input) = true) :
    resolve_component_id input g = some (pyLower input) ∧
    resolve_component_id input g = resolve_component_id input g' ∧
    (isCanonicalId input = true → resolve_component_id input g = some input) := by
  have hchars := isCanonicalId_chars h
  have hns : ∀ c ∈ input, isSpaceChar c = false := by
    intro c hc
    have := (hchars (lowerChar c) (List.mem_map_of_mem lowerChar hc)).2
    rwa [lowerChar_isSpace] at this
  have hstrip : pyStrip input = input := pyStrip_eq_self input hns
  have hne : input ≠ [] := by
    rintro rfl
    rw [pyLower_nil] at h
    exact absurd h (by decide)
  have hpfx : compUnderscore.isPrefixOf (pyLower (pyStrip input)) = true := by
    rw [hstrip]
    simp only [isCanonicalId, Bool.and_eq_true] at h
    exact h.1.1
  have hmain : ∀ gg : GraphData, resolve_component_id input gg = some (pyLower input) := by
    intro gg
    unfold resolve_component_id
    rw [if_neg hne, if_pos hpfx, hstrip]
  refine ⟨hmain g, (hmain g).trans (hmain g').symm, fun hc => ?_⟩
  have hlow : pyLower input = input :=
    pyLower_eq_self input (fun c hc' => (isCanonicalId_chars hc c hc').1)
  rw [hmain g, hlow]

/-- C6 witness: `COMP_7` resolves to `comp_7` in two unrelated graphs, and
`comp_7` resolves to itself. -/
theorem resolve_canonical_id_witness :
    resolve_component_id "COMP_7".toList gW = some "comp_7".toList ∧
    resolve_component_id "COMP_7".toList gW = resolve_component_id "COMP_7".toList gAmb ∧
    resolve_component_id "comp_7".toList gW = some "comp_7".toList := by
  have h1 := resolve_canonical_id gW gAmb "COMP_7".toList (by decide)
  have h2 := resolve_canonical_id gW gAmb "comp_7".toList (by decide)
  exact ⟨h1.1, h1.2.1, h2.2.2 (by decide)⟩

/-- C9: when both endpoint strings resolve to the same canonical id,
`find_path_bfs` returns the singleton path of that id. -/
theorem find_path_bfs_self (g : GraphData) (a b s : Str)
    (ha : resolveEndpoint a g = some s) (hb : resolveEndpoint b g = some s) :
    find_path_bfs a b g = some [s] := by
  unfold find_path_bfs
  rw [ha, hb]
  simp

/-- C9 witness: the self path of the pump, queried by instance name on both
sides. -/
theorem find_path_bfs_self_witness :
    find_path_bfs "pump_1".toList "PUMP_1".toList gW = some ["comp_1".toList] :=
  find_path_bfs_self gW _ _ _ (by decide) (by decide)

/-- C10: an input whose lower-casing merely starts with `comp_` — even one
naming no component of the graph — resolves to its (stripped) lower-cased
form without validation, and `find_path_bfs` on two such case-insensitively
equal strings returns the singleton path of the nonexistent id. -/
theorem resolve_unvalidated_comp_id (g : GraphData) (a b : Str)
    (h1 : compUnderscore.isPrefixOf (pyLower a) = true)
    (h2 : pyLower b = pyLower a) :
    resolve_component_id a g = some (pyLower (pyStrip a)) ∧
    find_path_bfs a b g = some [pyLower a] := by
  have hne : a ≠ [] := by
    rintro rfl
    exact absurd h1 (by decide)
  have hpfx : compUnderscore.isPrefixOf (pyLower (pyStrip a)) = true := by
    rw [pyStrip_pyLower_comm]
    exact isPrefixOf_pyStrip h1 (by decide) (by decide)
  constructor
  · unfold resolve_component_id
    rw [if_neg hne, if_pos hpfx]
  · have h1b : compUnderscore.isPrefixOf (pyLower b) = true := by rw [h2]; exact h1
    unfold find_path_bfs resolveEndpoint
    rw [if_pos h1, if_pos h1b, h2]
    simp

/-- C10 witness: `comp_zzz` is not canonical and names nothing in the graph,
yet it resolves to itself and the path query returns its singleton path. -/
theorem resolve_unvalidated_comp_id_witness :
    resolve_component_id "comp_zzz".toList gW = some "comp_zzz".toList ∧
    find_path_bfs "comp_zzz".toList "COMP_ZZZ".toList gW = some ["comp_zzz".toList] := by
  have h := resolve_unvalidated_comp_id gW "comp_zzz".toList "COMP_ZZZ".toList
    (by decide) (by decide)
  exact ⟨h.1, h.2⟩

/-! ### The indexed and no-index resolution branches (C4, C5) -/

theorem resolve_exact_none (g : GraphData) (input : Str)
    (h2 : ∀ comp ∈ g.components, pyNorm comp.instance_name ≠ pyNorm (pyStrip input)) :
    g.components.find?
      (fun comp => pyNorm comp.instance_name == pyNorm (pyStrip input)) = none := by
  refine List.find?_eq_none.mpr (fun comp hc => ?_)
  simpa using h2 comp hc

/-- C4: with no trailing numeric index (and no exact or canonical-id match),
resolution returns an id exactly when the unique-prefix candidate list is a
singleton; zero or several matches yield no value, never an arbitrary
pick. -/
theorem resolve_no_index_unique (g : GraphData) (input : Str)
    (h0 : input ≠ [])
    (h1 : compUnderscore.isPrefixOf (pyLower (pyStrip input)) = false)
    (h2 : ∀ comp ∈ g.components, pyNorm comp.instance_name ≠ pyNorm (pyStrip input))
    (h3 : splitTrailingIndex (pyNorm (pyStrip input)) = none) :
    (∀ m, noIndexMatches g (pyNorm (pyStrip input)) = [m] →
      resolve_component_id input g = some m.id) ∧
    ((noIndexMatches g (pyNorm (pyStrip input))).length ≠ 1 →
      resolve_component_id input g = none) := by
  have hres : resolve_component_id input g =
      (match noIndexMatches g (pyNorm (pyStrip input)) with
        | [m] => some m.id
        | _ => none) := by
    unfold resolve_component_id
    rw [if_neg h0, if_neg (by simp [h1])]
    dsimp only
    rw [resolve_exact_none g input h2, h3]
  constructor
  · intro m hm
    rw [hres, hm]
  · intro hlen
    rw [hres]
    rcases hL : noIndexMatches g (pyNorm (pyStrip input)) with _ | ⟨m, _ | ⟨m2, tl⟩⟩
    · rfl
    · exact absurd (by rw [hL]; rfl) hlen
    · rfl

/-- C4 witness: the ambiguous query `valve` over two ball valves resolves to
nothing, while `boiler` over a single boiler resolves to its id. -/
theorem resolve_no_index_unique_witness :
    resolve_component_id "valve".toList gAmb = none ∧
    resolve_component_id "boiler".toList gW = some "comp_2".toList := by
  constructor
  · exact (resolve_no_index_unique gAmb "valve".toList (by decide) (by decide)
      (by decide) (by decide)).2 (by decide)
  · exact (resolve_no_index_unique gW "boiler".toList (by decide) (by decide)
      (by decide) (by decide)).1 ⟨"comp_2".toList, "BOILER_1".toList⟩ (by decide)

/-- C5: with a trailing numeric index (and no exact or canonical-id match),
resolution is exactly the lookup of the recombined
`_norm(canonical + "_" + idx)` against the instance names: the first exact
match's id, and no value — with no fallback to prefix matching — when none
matches. -/
theorem resolve_with_index (g : GraphData) (input b idx : Str)
    (h0 : input ≠ [])
    (h1 : compUnderscore.isPrefixOf (pyLower (pyStrip input)) = false)
    (h2 : ∀ comp ∈ g.components, pyNorm comp.instance_name ≠ pyNorm (pyStrip input))
    (h3 : splitTrailingIndex (pyNorm (pyStrip input)) = some (b, idx)) :
    resolve_component_id input g =
      (g.components.find? (fun comp => pyNorm comp.instance_name == indexWanted b idx)).map
        (fun comp => comp.id) := by
  unfold resolve_component_id
  rw [if_neg h0, if_neg (by simp [h1])]
  dsimp only
  rw [resolve_exact_none g input h2, h3]

/-- C5 witness: `valve 2` finds `Ball_Valve_2` by recombination, and
`boiler 7`, whose recombination matches nothing, resolves to nothing even
though a prefix match for `boiler` exists. -/
theorem resolve_with_index_witness :
    resolve_component_id "valve 2".toList gAmb = some "comp_2".toList ∧
    resolve_component_id "boiler 7".toList gW = none := by
  constructor
  · exact (resolve_with_index gAmb "valve 2".toList "valve".toList "2".toList
      (by decide) (by decide) (by decide) (by decide)).trans (by decide)
  · exact (resolve_with_index gW "boiler 7".toList "boiler".toList "7".toList
      (by decide) (by decide) (by decide) (by decide)).trans (by decide)

/-! ### The adjacency relation of build_adjacency_graph (C3, C8) -/

theorem mem_wirePairs {l : List Str} (hl : l.Nodup) {a b : Str} :
    (a, b) ∈ wirePairs l ↔ a ∈ l ∧ b ∈ l ∧ a ≠ b := by
  induction l with
  | nil => simp [wirePairs]
  | cons c rest ih =>
    obtain ⟨hc, hrest⟩ := List.nodup_cons.mp hl
    simp only [wirePairs, List.mem_append, List.mem_map, Prod.mk.injEq, List.mem_cons]
    constructor
    · rintro ((⟨d, hd, rfl, rfl⟩ | ⟨d, hd, rfl, rfl⟩) | hp)
      · exact ⟨Or.inl rfl, Or.inr hd, fun hab => hc (hab ▸ hd)⟩
      · exact ⟨Or.inr hd, Or.inl rfl, fun hab => hc (hab ▸ hd)⟩
      · obtain ⟨ha, hb, hab⟩ := (ih hrest).mp hp
        exact ⟨Or.inr ha, Or.inr hb, hab⟩
    · rintro ⟨ha | ha, hb | hb, hab⟩
      · exact absurd (ha.trans hb.symm) hab
      · exact Or.inl (Or.inl ⟨b, hb, ha.symm, rfl⟩)
      · exact Or.inl (Or.inr ⟨a, ha, rfl, hb.symm⟩)
      · exact Or.inr ((ih hrest).mpr ⟨ha, hb, hab⟩)

theorem mem_wire_components {g : GraphData} {w a : Str} :
    a ∈ wire_components g w ↔
      ∃ conn, conn ∈ g.connections ∧ conn.wire = w ∧ conn.component = a := by
  simp only [wire_components, List.mem_dedup, List.mem_map, List.mem_filter, beq_iff_eq]
  constructor
  · rintro ⟨conn, ⟨hconn, hw⟩, rfl⟩
    exact ⟨conn, hconn, hw, rfl⟩
  · rintro ⟨conn, hconn, hw, rfl⟩
    exact ⟨conn, ⟨hconn, hw⟩, rfl⟩

theorem mem_wireList {g : GraphData} {w : Str} :
    w ∈ wireList g ↔ ∃ conn, conn ∈ g.connections ∧ conn.wire = w := by
  simp only [wireList, List.mem_dedup, List.mem_map]

/-- Extensional characterisation of the adjacency map built by
`build_adjacency_graph`: two distinct components are adjacent exactly when
some wire's component set contains both. -/
theorem adjacency_mem_iff {g : GraphData} {a b : Str} :
    adjacency_mem g a b = true ↔
      a ≠ b ∧ ∃ w, a ∈ wire_components g w ∧ b ∈ wire_components g w := by
  unfold adjacency_mem adjacencyPairs
  rw [decide_eq_true_iff, List.mem_flatten]
  constructor
  · rintro ⟨l, hl, hp⟩
    obtain ⟨w, _, rfl⟩ := List.mem_map.mp hl
    obtain ⟨ha, hb, hab⟩ := (mem_wirePairs (List.nodup_dedup _)).mp hp
    exact ⟨hab, w, ha, hb⟩
  · rintro ⟨hab, w, ha, hb⟩
    have hw : w ∈ wireList g := by
      obtain ⟨conn, hconn, hwire, _⟩ := mem_wire_components.mp ha
      exact mem_wireList.mpr ⟨conn, hconn, hwire⟩
    exact ⟨wirePairs (wire_components g w),
      List.mem_map.mpr ⟨w, hw, rfl⟩,
      (mem_wirePairs (List.nodup_dedup _)).mpr ⟨ha, hb, hab⟩⟩

/-- C3: for every graph the adjacency relation produced by
`build_adjacency_graph` is symmetric and irreflexive. -/
theorem build_adjacency_symm_irrefl (g : GraphData) (a b : Str) :
    adjacency_mem g a b = adjacency_mem g b a ∧ adjacency_mem g a a = false := by
  have hsymm : ∀ x y : Str, adjacency_mem g x y = true → adjacency_mem g y x = true := by
    intro x y h
    obtain ⟨hne, w, hx, hy⟩ := adjacency_mem_iff.mp h
    exact adjacency_mem_iff.mpr ⟨hne.symm, w, hy, hx⟩
  constructor
  · cases h1 : adjacency_mem g a b <;> cases h2 : adjacency_mem g b a
    · rfl
    · rw [hsymm b a h2] at h1; exact h1.symm
    · rw [hsymm a b h1] at h2; exact h2
    · rfl
  · cases h : adjacency_mem g a a with
    | false => rfl
    | true => exact absurd rfl (adjacency_mem_iff.mp h).1

/-! ### find_neighbors against the adjacency map (C8) -/

theorem find_neighbors_mem_adjacency (g : GraphData) (r cid : Str)
    (h : resolveEndpoint r g = some cid) :
    (∀ b, b ∈ find_neighbors r g ↔ adjacency_mem g cid b = true) ∧
    (find_neighbors r g).Nodup := by
  unfold find_neighbors
  rw [h]
  refine ⟨fun b => ?_, List.nodup_dedup _⟩
  simp only [List.mem_dedup, List.mem_map, List.mem_filter, Bool.and_eq_true,
    List.elem_iff, bne_iff_ne, ne_eq, beq_iff_eq]
  rw [adjacency_mem_iff]
  constructor
  · rintro ⟨conn, ⟨hconn, ⟨conn2, ⟨hconn2, hcid⟩, hw2⟩, hne⟩, rfl⟩
    refine ⟨fun hh => hne hh.symm, conn.wire, ?_, ?_⟩
    · exact mem_wire_components.mpr ⟨conn2, hconn2, hw2, hcid⟩
    · exact mem_wire_components.mpr ⟨conn, hconn, rfl, rfl⟩
  · rintro ⟨hne, w, hcw, hbw⟩
    obtain ⟨conn2, hconn2, hw2, hcid2⟩ := mem_wire_components.mp hcw
    obtain ⟨conn, hconn, hw, hcomp⟩ := mem_wire_components.mp hbw
    exact ⟨conn, ⟨hconn, ⟨conn2, ⟨hconn2, hcid2⟩, hw2.trans hw.symm⟩,
      fun hh => hne (hh.symm.trans hcomp)⟩, hcomp⟩

/-- C8: for a resolvable reference, the ids returned by `find_neighbors`
(recomputed from the connections list) are exactly the adjacency set of the
resolved id in the map of `build_adjacency_graph` — an id absent from that
map yields the empty set, since its membership is everywhere false — and the
returned list has no duplicates. -/
theorem find_neighbors_eq_adjacency (g : GraphData) (r cid : Str)
    (h : resolveEndpoint r g = some cid) :
    (∀ b, b ∈ find_neighbors r g ↔ adjacency_mem g cid b = true) ∧
    (find_neighbors r g).Nodup :=
  find_neighbors_mem_adjacency g r cid h

/-- C8 witness: the neighbors of the pump in the witness graph are exactly
the boiler, duplicate-free. -/
theorem find_neighbors_eq_adjacency_witness :
    (("comp_2".toList ∈ find_neighbors "pump_1".toList gW ↔
        adjacency_mem gW "comp_1".toList "comp_2".toList = true) ∧
      ("comp_3".toList ∈ find_neighbors "pump_1".toList gW ↔
        adjacency_mem gW "comp_1".toList "comp_3".toList = true)) ∧
    (find_neighbors "pump_1".toList gW).Nodup := by
  have h := find_neighbors_eq_adjacency gW "pump_1".toList "comp_1".toList (by decide)
  exact ⟨⟨h.1 "comp_2".toList, h.1 "comp_3".toList⟩, h.2⟩

/-! ### BFS machinery: the inner scan and reachability -/

/-- The nodes freshly enqueued by one pass of the inner BFS loop: the
neighbors not yet visited, first occurrence each, in scan order. -/
def freshList : List Str → List Str → List Str
  | [], _ => []
  | x :: t, v => if x ∈ v then freshList t v else x :: freshList t (v ++ [x])

theorem mem_freshList : ∀ {ns v : List Str} {x : Str},
    x ∈ freshList ns v ↔ x ∈ ns ∧ x ∉ v := by
  intro ns
  induction ns with
  | nil => simp [freshList]
  | cons y t ih =>
    intro v x
    by_cases hy : y ∈ v
    · rw [freshList, if_pos hy, ih, List.mem_cons]
      constructor
      · rintro ⟨hxt, hxv⟩; exact ⟨Or.inr hxt, hxv⟩
      · rintro ⟨hxy | hxt, hxv⟩
        · exact absurd (hxy ▸ hy) hxv
        · exact ⟨hxt, hxv⟩
    · rw [freshList, if_neg hy, List.mem_cons, ih, List.mem_cons]
      constructor
      · rintro (rfl | ⟨hxt, hxv⟩)
        · exact ⟨Or.inl rfl, hy⟩
        · exact ⟨Or.inr hxt, fun hv => hxv (List.mem_append.mpr (Or.inl hv))⟩
      · rintro ⟨rfl | hxt, hxv⟩
        · exact Or.inl rfl
        · by_cases hxy : x = y
          · exact Or.inl hxy
          · refine Or.inr ⟨hxt, fun hv => ?_⟩
            rcases List.mem_append.mp hv with hv | hv
            · exact hxv hv
            · exact hxy (List.mem_singleton.mp hv)

theorem nodup_freshList : ∀ (ns v : List Str), (freshList ns v).Nodup := by
  intro ns
  induction ns with
  | nil => intro v; simp [freshList]
  | cons y t ih =>
    intro v
    by_cases hy : y ∈ v
    · rw [freshList, if_pos hy]; exact ih v
    · rw [freshList, if_neg hy]
      refine List.nodup_cons.mpr ⟨fun hmem => ?_, ih (v ++ [y])⟩
      exact (mem_freshList.mp hmem).2 (List.mem_append.mpr (Or.inr (List.mem_singleton.mpr rfl)))

theorem scan_mem_end (e : Str) (path : List Str) :
    ∀ {ns : List Str} (queue : List (Str × List Str)) (visited : List Str), e ∈ ns →
    ∃ q' v', scanNeighbors e path ns queue visited = (some (path ++ [e]), q', v') := by
  intro ns
  induction ns with
  | nil => intro _ _ h; exact absurd h (List.not_mem_nil e)
  | cons n t ih =>
    intro queue visited hmem
    by_cases hn : n = e
    · subst hn
      exact ⟨queue, visited, by rw [scanNeighbors, if_pos rfl]⟩
    · have ht : e ∈ t := (List.mem_cons.mp hmem).resolve_left (fun hh => hn hh.symm)
      rw [scanNeighbors, if_neg hn]
      by_cases hv : n ∈ visited
      · rw [if_pos hv]; exact ih queue visited ht
      · rw [if_neg hv]; exact ih _ _ ht

theorem scan_not_mem_end (e : Str) (path : List Str) :
    ∀ {ns : List Str} (queue : List (Str × List Str)) (visited : List Str), e ∉ ns →
    scanNeighbors e path ns queue visited =
      (none, queue ++ (freshList ns visited).map (fun x => (x, path ++ [x])),
        visited ++ freshList ns visited) := by
  intro ns
  induction ns with
  | nil => intro queue visited _; simp [scanNeighbors, freshList]
  | cons n t ih =>
    intro queue visited hmem
    have hn : n ≠ e := fun hh => hmem (hh ▸ List.mem_cons_self n t)
    have ht : e ∉ t := fun hh => hmem (List.mem_cons_of_mem n hh)
    rw [scanNeighbors, if_neg hn]
    by_cases hv : n ∈ visited
    · rw [if_pos hv, ih queue visited ht, freshList, if_pos hv]
    · rw [if_neg hv, ih _ _ ht, freshList, if_neg hv]
      simp [List.append_assoc]

theorem reachN_of_path {adj : Str → List Str} {s : Str} :
    ∀ {p : List Str} {x : Str}, p.head? = some s → p.getLast? = some x →
    List.Chain' (fun a b => b ∈ adj a) p → ReachN adj s (p.length - 1) x := by
  intro p
  induction p using List.reverseRecOn with
  | nil => intro x hh _ _; exact absurd hh (by simp)
  | append_singleton q a ihq =>
    intro x hh hl hc
    have hax : a = x := by simpa using hl
    subst hax
    by_cases hqe : q = []
    · subst hqe
      have hsa : a = s := by simpa using hh
      subst hsa
      exact ReachN.refl
    · obtain ⟨lq, hlq⟩ : ∃ lq, q.getLast? = some lq := by
        cases hql : q.getLast? with
        | none => exact absurd (List.getLast?_eq_none_iff.mp hql) hqe
        | some lq => exact ⟨lq, rfl⟩
      have hh' : q.head? = some s := by
        rw [List.head?_append] at hh
        cases hqh : q.head? with
        | none => exact absurd (List.head?_eq_none_iff.mp hqh) hqe
        | some q0' => rw [hqh] at hh; exact hh
      obtain ⟨hcq, _, hrel⟩ := List.chain'_append.mp hc
      have hstep : a ∈ adj lq := hrel lq (by rw [hlq]; rfl) a rfl
      have hreach := ihq hh' hlq hcq
      have hlen : (q ++ [a]).length - 1 = q.length - 1 + 1 := by
        have h1 : 1 ≤ q.length := List.length_pos.mpr hqe
        rw [List.length_append, List.length_singleton]
        omega
      rw [hlen]
      exact ReachN.step hreach hstep

theorem path_of_reachN {adj : Str → List Str} {s : Str} {n : Nat} {x : Str}
    (h : ReachN adj s n x) :
    ∃ p : List Str, p.head? = some s ∧ p.getLast? = some x ∧
      List.Chain' (fun a b => b ∈ adj a) p ∧ p.length = n + 1 := by
  induction h with
  | refl => exact ⟨[s], rfl, rfl, List.chain'_singleton s, rfl⟩
  | @step n y x hy hadj ih =>
    obtain ⟨p, hh, hl, hc, hlen⟩ := ih
    have hpne : p ≠ [] := by rintro rfl; simp at hh
    refine ⟨p ++ [x], ?_, List.getLast?_concat p, ?_, by simp [hlen]⟩
    · rw [List.head?_append, hh]; rfl
    · refine List.chain'_append.mpr ⟨hc, List.chain'_singleton x, ?_⟩
      intro a ha b hb
      rw [hl] at ha
      have ha' : y = a := by simpa using ha
      have hb' : x = b := by simpa using hb
      subst ha'; subst hb'
      exact hadj

/-! ### The BFS loop invariant -/

/-- The invariant maintained by the `while queue` loop of `find_path_bfs`,
for start `s` and end `e` over neighbor function `adj`:
every queue entry carries the simple path used to reach its node, with all
its nodes visited and the end node not among them; every entry's path is a
shortest path to its node; path lengths along the queue are nondecreasing
and within one of the front entry's; visited nodes no longer in the queue
have been fully processed (all their neighbors are visited and none is the
end node, else the loop would have returned); and no node sits in the queue
twice. -/
structure BfsInv (adj : Str → List Str) (s e : Str)
    (queue : List (Str × List Str)) (visited : List Str) : Prop where
  entries : ∀ np ∈ queue, np.2.head? = some s ∧ np.2.getLast? = some np.1 ∧
    List.Chain' (fun a b => b ∈ adj a) np.2 ∧ np.2.Nodup ∧
    (∀ x ∈ np.2, x ∈ visited) ∧ e ∉ np.2
  start_mem : s ∈ visited
  end_not_mem : e ∉ visited
  entries_dist : ∀ np ∈ queue, ReachN adj s (np.2.length - 1) np.1 ∧
    ∀ m, ReachN adj s m np.1 → np.2.length ≤ m + 1
  sorted : List.Pairwise (fun a b : Str × List Str => a.2.length ≤ b.2.length) queue
  level_bound : ∀ np ∈ queue, ∀ hd ∈ queue.head?, np.2.length ≤ hd.2.length + 1
  processed : ∀ y ∈ visited, y ∉ queue.map Prod.fst →
    (∀ x ∈ adj y, x ∈ visited) ∧ e ∉ adj y
  nodes_nodup : (queue.map Prod.fst).Nodup

theorem bfs_head_le {adj : Str → List Str} {s e c : Str} {p : List Str}
    {rest : List (Str × List Str)} {v : List Str}
    (hinv : BfsInv adj s e ((c, p) :: rest) v) :
    ∀ np ∈ (c, p) :: rest, p.length ≤ np.2.length := by
  intro np hnp
  rcases List.mem_cons.mp hnp with rfl | h
  · exact le_refl _
  · exact (List.pairwise_cons.mp hinv.sorted).1 np h

theorem bfs_not_queue_node {adj : Str → List Str} {s e c : Str} {p : List Str}
    {rest : List (Str × List Str)} {v : List Str}
    (hinv : BfsInv adj s e ((c, p) :: rest) v) {y : Str} {n : Nat}
    (hy : ReachN adj s n y) (hn : n + 1 < p.length) :
    y ∉ ((c, p) :: rest).map Prod.fst := by
  intro hyq
  obtain ⟨np, hnp, rfl⟩ := List.mem_map.mp hyq
  have h1 : np.2.length ≤ n + 1 := (hinv.entries_dist np hnp).2 n hy
  have h2 : p.length ≤ np.2.length := bfs_head_le hinv np hnp
  omega

theorem bfs_reach_lt_visited {adj : Str → List Str} {s e c : Str} {p : List Str}
    {rest : List (Str × List Str)} {v : List Str}
    (hinv : BfsInv adj s e ((c, p) :: rest) v) :
    ∀ m x, ReachN adj s m x → m + 1 < p.length → x ∈ v := by
  intro m
  induction m using Nat.strong_induction_on with
  | _ m ih =>
    intro x hx hm
    cases hx with
    | refl => exact hinv.start_mem
    | @step n y x hy hadj =>
      have hyv : y ∈ v := ih n (by omega) y hy (by omega)
      have hynq : y ∉ ((c, p) :: rest).map Prod.fst :=
        bfs_not_queue_node hinv hy (by omega)
      exact (hinv.processed y hyv hynq).1 x hadj

theorem bfs_unvisited_lb {adj : Str → List Str} {s e c : Str} {p : List Str}
    {rest : List (Str × List Str)} {v : List Str}
    (hinv : BfsInv adj s e ((c, p) :: rest) v) :
    ∀ x m, x ∉ v → ReachN adj s m x → p.length ≤ m := by
  intro x m hxv hx
  by_contra hlt
  push_neg at hlt
  cases hx with
  | refl => exact hxv hinv.start_mem
  | @step n y x hy hadj =>
    have hyv : y ∈ v := bfs_reach_lt_visited hinv n y hy (by omega)
    have hynq : y ∉ ((c, p) :: rest).map Prod.fst :=
      bfs_not_queue_node hinv hy (by omega)
    exact hxv ((hinv.processed y hyv hynq).1 x hadj)

theorem bfs_empty_unreachable {adj : Str → List Str} {s e : Str} {v : List Str}
    (hinv : BfsInv adj s e [] v) : ∀ m, ¬ ReachN adj s m e := by
  have hv : ∀ m x, ReachN adj s m x → x ∈ v := by
    intro m x h
    induction h with
    | refl => exact hinv.start_mem
    | step hy hadj ih => exact (hinv.processed _ ih (by simp)).1 _ hadj
  exact fun m hm => hinv.end_not_mem (hv m e hm)

theorem pairwise_of_total_true {α : Type} {R : α → α → Prop} (h : ∀ a b, R a b) :
    ∀ l : List α, l.Pairwise R
  | [] => List.Pairwise.nil
  | a :: t => List.Pairwise.cons (fun b _ => h a b) (pairwise_of_total_true h t)

/-- Fuel sufficient for the BFS loop from a given state: pending queue
entries plus nodes of the universe not yet visited (each loop iteration pops
one entry, and every enqueue visits a fresh universe node). -/
def bfsBound (U : List Str) (queue : List (Str × List Str)) (visited : List Str) : Nat :=
  queue.length + (U.toFinset \ visited.toFinset).card

theorem bfsInv_step {adj : Str → List Str} {s e c : Str} {p : List Str}
    {rest : List (Str × List Str)} {v : List Str}
    (hinv : BfsInv adj s e ((c, p) :: rest) v) (he : e ∉ adj c) :
    BfsInv adj s e (rest ++ (freshList (adj c) v).map (fun x => (x, p ++ [x])))
      (v ++ freshList (adj c) v) := by
  obtain ⟨hhead, hlast, hchain, hpnodup, hpv, hep⟩ :=
    hinv.entries (c, p) (List.mem_cons_self _ _)
  have hpne : p ≠ [] := by rintro rfl; simp at hhead
  have hplen : 1 ≤ p.length := List.length_pos.mpr hpne
  obtain ⟨hdc, hdl⟩ := hinv.entries_dist (c, p) (List.mem_cons_self _ _)
  have hrest_nodes_v : ∀ np ∈ rest, np.1 ∈ v := by
    intro np hnp
    obtain ⟨_, hl2, _, _, hv2, _⟩ := hinv.entries np (List.mem_cons_of_mem _ hnp)
    exact hv2 np.1 (List.mem_of_mem_getLast? hl2)
  have hmap : (rest ++ (freshList (adj c) v).map (fun x => (x, p ++ [x]))).map Prod.fst
      = rest.map Prod.fst ++ freshList (adj c) v := by
    rw [List.map_append, List.map_map]
    simp [Function.comp_def]
  refine ⟨?_, ?_, ?_, ?_, ?_, ?_, ?_, ?_⟩
  · intro np hnp
    rcases List.mem_append.mp hnp with hr | hnew
    · obtain ⟨h1, h2, h3, h4, h5, h6⟩ := hinv.entries np (List.mem_cons_of_mem _ hr)
      exact ⟨h1, h2, h3, h4, fun x hx => List.mem_append.mpr (Or.inl (h5 x hx)), h6⟩
    · obtain ⟨x, hxF, rfl⟩ := List.mem_map.mp hnew
      obtain ⟨hxadj, hxv⟩ := mem_freshList.mp hxF
      refine ⟨?_, List.getLast?_concat p, ?_, ?_, ?_, ?_⟩
      · rw [List.head?_append, hhead]; rfl
      · refine List.chain'_append.mpr ⟨hchain, List.chain'_singleton x, ?_⟩
        intro a ha b hb
        rw [hlast] at ha
        have ha' : c = a := by simpa using ha
        have hb' : x = b := by simpa using hb
        subst ha'; subst hb'
        exact hxadj
      · rw [List.nodup_append]
        exact ⟨hpnodup, List.nodup_singleton x,
          fun a hap hax => hxv ((List.mem_singleton.mp hax) ▸ hpv a hap)⟩
      · intro y hy
        rcases List.mem_append.mp hy with hyp | hyx
        · exact List.mem_append.mpr (Or.inl (hpv y hyp))
        · rw [List.mem_singleton.mp hyx]
          exact List.mem_append.mpr (Or.inr hxF)
      · intro hemem
        rcases List.mem_append.mp hemem with hem | hem
        · exact hep hem
        · have hex := List.mem_singleton.mp hem
          subst hex
          exact he hxadj
  · exact List.mem_append.mpr (Or.inl hinv.start_mem)
  · intro hmem
    rcases List.mem_append.mp hmem with h | h
    · exact hinv.end_not_mem h
    · exact he (mem_freshList.mp h).1
  · intro np hnp
    rcases List.mem_append.mp hnp with hr | hnew
    · obtain ⟨h1, h2⟩ := hinv.entries_dist np (List.mem_cons_of_mem _ hr)
      exact ⟨h1, h2⟩
    · obtain ⟨x, hxF, rfl⟩ := List.mem_map.mp hnew
      obtain ⟨hxadj, hxv⟩ := mem_freshList.mp hxF
      constructor
      · have hr1 := ReachN.step hdc hxadj
        have hlen : (p ++ [x]).length - 1 = p.length - 1 + 1 := by
          rw [List.length_append, List.length_singleton]; omega
        rw [hlen]
        exact hr1
      · intro m hm
        have hlb := bfs_unvisited_lb hinv x m hxv hm
        rw [List.length_append, List.length_singleton]
        omega
  · refine List.pairwise_append.mpr ⟨(List.pairwise_cons.mp hinv.sorted).2, ?_, ?_⟩
    · rw [List.pairwise_map]
      refine pairwise_of_total_true (fun a b => ?_) _
      simp [List.length_append]
    · intro a ha b hb
      obtain ⟨x, hxF, rfl⟩ := List.mem_map.mp hb
      have h1 : a.2.length ≤ p.length + 1 :=
        hinv.level_bound a (List.mem_cons_of_mem _ ha) (c, p) rfl
      simpa [List.length_append] using h1
  · intro np hnp hd hhd
    have hnp_len : np.2.length ≤ p.length + 1 := by
      rcases List.mem_append.mp hnp with hr | hnew
      · exact hinv.level_bound np (List.mem_cons_of_mem _ hr) (c, p) rfl
      · obtain ⟨x, hxF, rfl⟩ := List.mem_map.mp hnew
        simp [List.length_append]
    cases rest with
    | nil =>
      have hdmem : hd ∈ (freshList (adj c) v).map (fun x => (x, p ++ [x])) := by
        apply List.mem_of_mem_head?
        simpa using hhd
      obtain ⟨x, hxF, rfl⟩ := List.mem_map.mp hdmem
      simp only [List.length_append, List.length_singleton]
      omega
    | cons r0 rt =>
      have hhd' : r0 = hd := by
        rw [List.cons_append] at hhd
        simpa using hhd
      subst hhd'
      have hr0 : p.length ≤ r0.2.length :=
        bfs_head_le hinv r0 (List.mem_cons_of_mem _ (List.mem_cons_self r0 rt))
      omega
  · intro y hy hyq
    rw [hmap] at hyq
    rcases List.mem_append.mp hy with hyv | hyF
    · by_cases hyc : y = c
      · subst hyc
        refine ⟨fun x hx => ?_, he⟩
        by_cases hxv : x ∈ v
        · exact List.mem_append.mpr (Or.inl hxv)
        · exact List.mem_append.mpr (Or.inr (mem_freshList.mpr ⟨hx, hxv⟩))
      · have hynold : y ∉ ((c, p) :: rest).map Prod.fst := by
          rw [List.map_cons]
          intro hmem
          rcases List.mem_cons.mp hmem with h | h
          · exact hyc h
          · exact hyq (List.mem_append.mpr (Or.inl h))
        obtain ⟨h1, h2⟩ := hinv.processed y hyv hynold
        exact ⟨fun x hx => List.mem_append.mpr (Or.inl (h1 x hx)), h2⟩
    · exact absurd (List.mem_append.mpr (Or.inr hyF)) hyq
  · rw [hmap]
    refine List.nodup_append.mpr ⟨?_, nodup_freshList _ _, ?_⟩
    · have hnn := hinv.nodes_nodup
      rw [List.map_cons] at hnn
      exact (List.nodup_cons.mp hnn).2
    · intro a haR haF
      obtain ⟨np, hnp, rfl⟩ := List.mem_map.mp haR
      exact (mem_freshList.mp haF).2 (hrest_nodes_v np hnp)

theorem bfsBound_step (adj : Str → List Str) (c : Str) (p : List Str)
    (rest : List (Str × List Str)) (v U : List Str)
    (hU : ∀ y ∈ adj c, y ∈ U) :
    bfsBound U (rest ++ (freshList (adj c) v).map (fun x => (x, p ++ [x])))
        (v ++ freshList (adj c) v) + 1
      ≤ bfsBound U ((c, p) :: rest) v := by
  unfold bfsBound
  have hsub : (freshList (adj c) v).toFinset ⊆ U.toFinset \ v.toFinset := by
    intro x hx
    rw [List.mem_toFinset] at hx
    obtain ⟨hxa, hxv⟩ := mem_freshList.mp hx
    rw [Finset.mem_sdiff, List.mem_toFinset, List.mem_toFinset]
    exact ⟨hU x hxa, hxv⟩
  have hle : (freshList (adj c) v).toFinset.card ≤ (U.toFinset \ v.toFinset).card :=
    Finset.card_le_card hsub
  have hcardF : (freshList (adj c) v).toFinset.card = (freshList (adj c) v).length :=
    List.toFinset_card_of_nodup (nodup_freshList _ _)
  have heq : U.toFinset \ (v ++ freshList (adj c) v).toFinset
      = (U.toFinset \ v.toFinset) \ (freshList (adj c) v).toFinset := by
    rw [List.toFinset_append]
    exact (sdiff_sdiff _ _ _).symm
  rw [heq, Finset.card_sdiff hsub]
  rw [hcardF] at hle
  simp only [List.length_append, List.length_map, List.length_cons]
  omega

/-- Correctness of the BFS loop under its invariant with sufficient fuel:
a returned path is a shortest simple path from `s` to `e` over `adj`, and a
`none` result means `e` is unreachable from `s`. -/
theorem bfsLoop_correct (adj : Str → List Str) (s e : Str) (U : List Str)
    (hU : ∀ x y, y ∈ adj x → y ∈ U) :
    ∀ (fuel : Nat) (queue : List (Str × List Str)) (visited : List Str),
      BfsInv adj s e queue visited → bfsBound U queue visited ≤ fuel →
      (∀ p, bfsLoop adj e fuel queue visited = some p →
        p.head? = some s ∧ p.getLast? = some e ∧
        List.Chain' (fun a b => b ∈ adj a) p ∧ p.Nodup ∧
        ReachN adj s (p.length - 1) e ∧ (∀ m, ReachN adj s m e → p.length ≤ m + 1)) ∧
      (bfsLoop adj e fuel queue visited = none → ∀ m, ¬ ReachN adj s m e) := by
  intro fuel
  induction fuel with
  | zero =>
    intro queue visited hinv hb
    have hq : queue = [] := by
      cases queue with
      | nil => rfl
      | cons a t => exfalso; simp [bfsBound] at hb
    subst hq
    exact ⟨fun p hp => by simp [bfsLoop] at hp, fun _ => bfs_empty_unreachable hinv⟩
  | succ fuel ih =>
    intro queue visited hinv hb
    cases queue with
    | nil =>
      exact ⟨fun p hp => by simp [bfsLoop] at hp, fun _ => bfs_empty_unreachable hinv⟩
    | cons hd rest =>
      obtain ⟨c, p⟩ := hd
      obtain ⟨hhead, hlast, hchain, hpnodup, hpv, hep⟩ :=
        hinv.entries (c, p) (List.mem_cons_self _ _)
      have hpne : p ≠ [] := by rintro rfl; simp at hhead
      have hplen : 1 ≤ p.length := List.length_pos.mpr hpne
      obtain ⟨hdc, _⟩ := hinv.entries_dist (c, p) (List.mem_cons_self _ _)
      by_cases he : e ∈ adj c
      · obtain ⟨q', v', hscan⟩ := scan_mem_end e p rest visited he
        have hrun : bfsLoop adj e (fuel + 1) ((c, p) :: rest) visited = some (p ++ [e]) := by
          simp only [bfsLoop, hscan]
        constructor
        · intro p' hp'
          rw [hrun] at hp'
          obtain rfl : p ++ [e] = p' := Option.some.inj hp'
          refine ⟨?_, List.getLast?_concat p, ?_, ?_, ?_, ?_⟩
          · rw [List.head?_append, hhead]; rfl
          · refine List.chain'_append.mpr ⟨hchain, List.chain'_singleton e, ?_⟩
            intro a ha b hb'
            rw [hlast] at ha
            have ha' : c = a := by simpa using ha
            have hb'' : e = b := by simpa using hb'
            subst ha'; subst hb''
            exact he
          · rw [List.nodup_append]
            exact ⟨hpnodup, List.nodup_singleton e,
              fun a hap hax => hep ((List.mem_singleton.mp hax) ▸ hap)⟩
          · have hlen : (p ++ [e]).length - 1 = p.length - 1 + 1 := by
              rw [List.length_append, List.length_singleton]; omega
            rw [hlen]
            exact ReachN.step hdc he
          · intro m hm
            have hlb := bfs_unvisited_lb hinv e m hinv.end_not_mem hm
            rw [List.length_append, List.length_singleton]
            omega
        · intro hnone
          rw [hrun] at hnone
          exact absurd hnone (by simp)
      · have hscan := scan_not_mem_end e p rest visited he
        have hrun : bfsLoop adj e (fuel + 1) ((c, p) :: rest) visited =
            bfsLoop adj e fuel
              (rest ++ (freshList (adj c) visited).map (fun x => (x, p ++ [x])))
              (visited ++ freshList (adj c) visited) := by
          simp only [bfsLoop, hscan]
        rw [hrun]
        refine ih _ _ (bfsInv_step hinv he) ?_
        have hstep := bfsBound_step adj c p rest visited U (fun y hy => hU c y hy)
        omega

/-! ### From the loop to find_path_bfs (C2, C7) -/

theorem bfsInv_init (adj : Str → List Str) (s e : Str) (hne : s ≠ e) :
    BfsInv adj s e [(s, [s])] [s] := by
  refine ⟨?_, ?_, ?_, ?_, ?_, ?_, ?_, ?_⟩
  · intro np hnp
    have hnp' : np = (s, [s]) := List.mem_singleton.mp hnp
    subst hnp'
    exact ⟨rfl, rfl, List.chain'_singleton s, List.nodup_singleton s,
      fun x hx => hx, fun hmem => hne (List.mem_singleton.mp hmem).symm⟩
  · exact List.mem_singleton.mpr rfl
  · intro hmem
    exact hne (List.mem_singleton.mp hmem).symm
  · intro np hnp
    have hnp' : np = (s, [s]) := List.mem_singleton.mp hnp
    subst hnp'
    exact ⟨ReachN.refl, fun m _ => by simp⟩
  · simp
  · intro np hnp hd hhd
    have hnp' : np = (s, [s]) := List.mem_singleton.mp hnp
    have hhd' : (s, [s]) = hd := by simpa using hhd
    subst hnp'
    rw [← hhd']
    simp
  · intro y hy hyq
    exact absurd (by simpa using List.mem_singleton.mp hy) hyq
  · simp

theorem adjacency_mem_imp_allComponents {g : GraphData} {a b : Str}
    (h : adjacency_mem g a b = true) : b ∈ allComponents g := by
  obtain ⟨_, w, _, hb⟩ := adjacency_mem_iff.mp h
  obtain ⟨conn, hconn, _, hcomp⟩ := mem_wire_components.mp hb
  unfold allComponents
  rw [List.mem_dedup]
  exact List.mem_map.mpr ⟨conn, hconn, hcomp⟩

theorem mem_neighborsOf {g : GraphData} {a b : Str} :
    b ∈ neighborsOf g a ↔ adjacency_mem g a b = true := by
  unfold neighborsOf
  rw [List.mem_filter]
  exact ⟨fun h => h.2, fun h => ⟨adjacency_mem_imp_allComponents h, h⟩⟩

theorem find_path_bfs_main (g : GraphData) (a b s e : Str)
    (hs : resolveEndpoint a g = some s) (he : resolveEndpoint b g = some e)
    (hne : s ≠ e) :
    (∀ p, find_path_bfs a b g = some p →
      p.head? = some s ∧ p.getLast? = some e ∧
      List.Chain' (fun x y => y ∈ neighborsOf g x) p ∧ p.Nodup ∧
      ReachN (neighborsOf g) s (p.length - 1) e ∧
      (∀ m, ReachN (neighborsOf g) s m e → p.length ≤ m + 1)) ∧
    (find_path_bfs a b g = none → ∀ m, ¬ ReachN (neighborsOf g) s m e) := by
  have hrun : find_path_bfs a b g =
      bfsLoop (neighborsOf g) e ((allComponents g).length + 1) [(s, [s])] [s] := by
    unfold find_path_bfs
    rw [hs, he]
    simp [hne]
  have hUmem : ∀ x y, y ∈ neighborsOf g x → y ∈ allComponents g :=
    fun x y hy => (List.mem_filter.mp hy).1
  have hbound : bfsBound (allComponents g) [(s, [s])] [s] ≤ (allComponents g).length + 1 := by
    unfold bfsBound
    have h1 : ((allComponents g).toFinset \ [s].toFinset).card ≤
        (allComponents g).toFinset.card :=
      Finset.card_le_card Finset.sdiff_subset
    have h2 : (allComponents g).toFinset.card ≤ (allComponents g).length :=
      List.toFinset_card_le _
    simp only [List.length_singleton]
    omega
  rw [hrun]
  exact bfsLoop_correct (neighborsOf g) s e (allComponents g) hUmem
    ((allComponents g).length + 1) [(s, [s])] [s] (bfsInv_init _ _ _ hne) hbound

/-- C2: for endpoint strings resolving to canonical ids, `find_path_bfs`
returns — whenever any path exists in the derived adjacency relation — a
valid path (resolved start to resolved end, consecutive components adjacent,
no repeats) of minimal edge count among all such paths, and returns the
absence marker exactly when no path exists; for distinct adjacent components
the result is the two-element pair. -/
theorem find_path_bfs_shortest (g : GraphData) (a b s e : Str)
    (hs : resolveEndpoint a g = some s) (he : resolveEndpoint b g = some e) :
    (∀ p, find_path_bfs a b g = some p →
      ValidPath g s e p ∧ p.Nodup ∧ ∀ q, ValidPath g s e q → p.length ≤ q.length) ∧
    ((∃ q, ValidPath g s e q) → ∃ p, find_path_bfs a b g = some p) ∧
    (adjacency_mem g s e = true → s ≠ e → find_path_bfs a b g = some [s, e]) := by
  by_cases hne : s = e
  · subst hne
    have hself : find_path_bfs a b g = some [s] := by
      unfold find_path_bfs
      rw [hs, he]
      simp
    refine ⟨?_, fun _ => ⟨[s], hself⟩, fun _ hne' => absurd rfl hne'⟩
    intro p hp
    rw [hself] at hp
    obtain rfl : [s] = p := Option.some.inj hp
    refine ⟨⟨rfl, rfl, List.chain'_singleton s⟩, List.nodup_singleton s, ?_⟩
    intro q hq
    obtain ⟨hqh, _, _⟩ := hq
    have hqne : q ≠ [] := by rintro rfl; simp at hqh
    have h1 : 1 ≤ q.length := List.length_pos.mpr hqne
    simpa using h1
  · have hmain := find_path_bfs_main g a b s e hs he hne
    have hconv1 : ∀ q, List.Chain' (fun x y => y ∈ neighborsOf g x) q →
        List.Chain' (fun x y => adjacency_mem g x y = true) q :=
      fun q hq => hq.imp (fun x y h => mem_neighborsOf.mp h)
    have hconv2 : ∀ q, List.Chain' (fun x y => adjacency_mem g x y = true) q →
        List.Chain' (fun x y => y ∈ neighborsOf g x) q :=
      fun q hq => hq.imp (fun x y h => mem_neighborsOf.mpr h)
    refine ⟨?_, ?_, ?_⟩
    · intro p hp
      obtain ⟨hh, hl, hc, hnd, _, hmin⟩ := hmain.1 p hp
      refine ⟨⟨hh, hl, hconv1 p hc⟩, hnd, ?_⟩
      intro q hq
      obtain ⟨hqh, hql, hqc⟩ := hq
      have hqreach := reachN_of_path hqh hql (hconv2 q hqc)
      have hqne : q ≠ [] := by rintro rfl; simp at hqh
      have hq1 : 1 ≤ q.length := List.length_pos.mpr hqne
      have := hmin (q.length - 1) hqreach
      omega
    · rintro ⟨q, hqh, hql, hqc⟩
      cases hval : find_path_bfs a b g with
      | some p => exact ⟨p, rfl⟩
      | none =>
        have hqreach := reachN_of_path hqh hql (hconv2 q hqc)
        exact absurd hqreach (hmain.2 hval _)
    · intro hadj hne'
      have hr1 : ReachN (neighborsOf g) s 1 e :=
        ReachN.step ReachN.refl (mem_neighborsOf.mpr hadj)
      cases hval : find_path_bfs a b g with
      | none => exact absurd hr1 (hmain.2 hval 1)
      | some p =>
        obtain ⟨hh, hl, _, _, _, hmin⟩ := hmain.1 p hval
        have hlen2 : p.length ≤ 2 := hmin 1 hr1
        cases p with
        | nil => simp at hh
        | cons x t =>
          cases t with
          | nil =>
            have hx1 : x = s := by simpa using hh
            have hx2 : x = e := by simpa using hl
            exact absurd (hx1.symm.trans hx2) hne'
          | cons y t2 =>
            cases t2 with
            | nil =>
              have hx1 : x = s := by simpa using hh
              have hy1 : y = e := by simpa using hl
              subst hx1; subst hy1
              rfl
            | cons z t3 =>
              exfalso
              simp [List.length_cons] at hlen2

/-- C2 witness: the adjacent pump and boiler yield exactly the two-element
shortest path. -/
theorem find_path_bfs_shortest_witness :
    find_path_bfs "pump_1".toList "BOILER_1".toList gW =
      some ["comp_1".toList, "comp_2".toList] :=
  (find_path_bfs_shortest gW "pump_1".toList "BOILER_1".toList
    "comp_1".toList "comp_2".toList (by decide) (by decide)).2.2 (by decide) (by decide)

/-- C7: the core functions signal business non-results by absence — being
total Lean functions, they model that the Python code raises for none of
these inputs: an unresolved endpoint or a nonexistent path yields `none`
from `find_path_bfs`, and an unresolved reference or a component with no
neighbors yields `[]` from `find_neighbors`.  (`resolve_component_id`
signals an unresolved reference by its `none` result by construction of its
`Option` type.) -/
theorem core_absence_semantics (g : GraphData) (x y r : Str) :
    (resolveEndpoint x g = none → find_path_bfs x y g = none) ∧
    (resolveEndpoint y g = none → find_path_bfs x y g = none) ∧
    (∀ s e, resolveEndpoint x g = some s → resolveEndpoint y g = some e →
      (∀ q, ¬ ValidPath g s e q) → find_path_bfs x y g = none) ∧
    (resolveEndpoint r g = none → find_neighbors r g = []) ∧
    (∀ cid, resolveEndpoint r g = some cid →
      (∀ b, adjacency_mem g cid b = false) → find_neighbors r g = []) := by
  refine ⟨?_, ?_, ?_, ?_, ?_⟩
  · intro h
    unfold find_path_bfs
    rw [h]
  · intro h
    unfold find_path_bfs
    rw [h]
    cases resolveEndpoint x g <;> rfl
  · intro s e hs he hnp
    by_cases hne : s = e
    · exfalso
      subst hne
      exact hnp [s] ⟨rfl, rfl, List.chain'_singleton s⟩
    · cases hval : find_path_bfs x y g with
      | none => rfl
      | some p =>
        exfalso
        obtain ⟨hh, hl, hc, _, _, _⟩ := (find_path_bfs_main g x y s e hs he hne).1 p hval
        exact hnp p ⟨hh, hl, hc.imp (fun u w huw => mem_neighborsOf.mp huw)⟩
  · intro h
    unfold find_neighbors
    rw [h]
  · intro cid hcid hno
    have hmem := (find_neighbors_mem_adjacency g r cid hcid).1
    cases hfn : find_neighbors r g with
    | nil => rfl
    | cons b t =>
      exfalso
      have hb : b ∈ find_neighbors r g := by rw [hfn]; exact List.mem_cons_self b t
      have hbt := (hmem b).mp hb
      rw [hno b] at hbt
      exact absurd hbt (by simp)

/-- C7 witness: an unresolvable reference gives a no-path result and an
empty neighbor list; two resolvable but disconnected components give a
no-path result; the isolated box component has an empty neighbor list. -/
theorem core_absence_semantics_witness :
    find_path_bfs "zzz".toList "pump_1".toList gW = none ∧
    find_path_bfs "pump_1".toList "box_1".toList gW = none ∧
    find_neighbors "zzz".toList gW = [] ∧
    find_neighbors "comp_3".toList gW = [] := by
  have hL : adjacencyPairs gW =
      [("comp_1".toList, "comp_2".toList), ("comp_2".toList, "comp_1".toList)] := by rfl
  have hno : ∀ b, adjacency_mem gW "comp_3".toList b = false := by
    intro b
    unfold adjacency_mem
    rw [hL]
    apply decide_eq_false
    intro hmem
    rcases List.mem_cons.mp hmem with h | h
    · have h1 : "comp_3".toList = "comp_1".toList := congrArg Prod.fst h
      exact absurd h1 (by decide)
    · rcases List.mem_cons.mp h with h' | h'
      · have h1 : "comp_3".toList = "comp_2".toList := congrArg Prod.fst h'
        exact absurd h1 (by decide)
      · exact List.not_mem_nil _ h'
  have hno2 : ∀ z, adjacency_mem gW z "comp_3".toList = false := by
    intro z
    unfold adjacency_mem
    rw [hL]
    apply decide_eq_false
    intro hmem
    rcases List.mem_cons.mp hmem with h | h
    · have h1 : "comp_3".toList = "comp_2".toList := congrArg Prod.snd h
      exact absurd h1 (by decide)
    · rcases List.mem_cons.mp h with h' | h'
      · have h1 : "comp_3".toList = "comp_1".toList := congrArg Prod.snd h'
        exact absurd h1 (by decide)
      · exact List.not_mem_nil _ h'
  have hnp : ∀ q, ¬ ValidPath gW "comp_1".toList "comp_3".toList q := by
    intro q hq
    obtain ⟨hh, hl, hc⟩ := hq
    obtain ⟨q', rfl⟩ := List.getLast?_eq_some_iff.mp hl
    cases q' with
    | nil =>
      simp only [List.nil_append, List.head?_cons, Option.some.injEq] at hh
      exact absurd hh (by decide)
    | cons z q'' =>
      obtain ⟨lq, hlq⟩ : ∃ lq, (z :: q'').getLast? = some lq := by
        cases hql : (z :: q'').getLast? with
        | none => exact absurd (List.getLast?_eq_none_iff.mp hql) (List.cons_ne_nil z q'')
        | some lq => exact ⟨lq, rfl⟩
      obtain ⟨_, _, hrel⟩ := List.chain'_append.mp hc
      have hadj := hrel lq (by rw [hlq]; rfl) "comp_3".toList rfl
      rw [hno2 lq] at hadj
      exact absurd hadj (by simp)
  refine ⟨(core_absence_semantics gW "zzz".toList "pump_1".toList "zzz".toList).1 (by decide),
    (core_absence_semantics gW "pump_1".toList "box_1".toList "zzz".toList).2.2.1
      "comp_1".toList "comp_3".toList (by decide) (by decide) hnp,
    (core_absence_semantics gW "zzz".toList "pump_1".toList "zzz".toList).2.2.2.1 (by decide),
    (core_absence_semantics gW "zzz".toList "pump_1".toList "comp_3".toList).2.2.2.2
      "comp_3".toList (by decide) hno⟩

/-! ### Bounded all-paths enumeration (C1) -/

/-- The specification of one `dfsVisit` call: the accumulator is extended
(never rewritten); the count bound is preserved; every added path is a
simple path from `s` to `e` of length at most `path.length + fuel`; and when
the result is still below the count bound it contains every such extension
of the current path. -/
def DfsVisitSpec (adj : Str → List Str) (s e : Str) (fuel : Nat) : Prop :=
  ∀ (n : Str) (p : List Str) (found : List (List Str)),
    p.head? = some s → p.getLast? = some n →
    List.Chain' (fun x y => y ∈ adj x) p → p.Nodup →
    (∃ tail, dfsVisit adj e fuel n p found = found ++ tail) ∧
    (found.length ≤ MAX_PATHS → (dfsVisit adj e fuel n p found).length ≤ MAX_PATHS) ∧
    (∀ q ∈ dfsVisit adj e fuel n p found, q ∈ found ∨
      (q.head? = some s ∧ q.getLast? = some e ∧
        List.Chain' (fun x y => y ∈ adj x) q ∧ q.Nodup ∧ q.length ≤ p.length + fuel)) ∧
    (∀ q, (∃ ext, q = p ++ ext) → q.getLast? = some e →
      List.Chain' (fun x y => y ∈ adj x) q → q.Nodup → q.length ≤ p.length + fuel →
      (dfsVisit adj e fuel n p found).length < MAX_PATHS →
      q ∈ dfsVisit adj e fuel n p found)

theorem dfsFold_spec (adj : Str → List Str) (s e : Str) (B : Nat)
    (visit : Str → List Str → List (List Str) → List (List Str))
    (hV : ∀ (n : Str) (p : List Str) (found : List (List Str)),
      p.head? = some s → p.getLast? = some n →
      List.Chain' (fun x y => y ∈ adj x) p → p.Nodup →
      (∃ tail, visit n p found = found ++ tail) ∧
      (found.length ≤ MAX_PATHS → (visit n p found).length ≤ MAX_PATHS) ∧
      (∀ q ∈ visit n p found, q ∈ found ∨
        (q.head? = some s ∧ q.getLast? = some e ∧
          List.Chain' (fun x y => y ∈ adj x) q ∧ q.Nodup ∧ q.length ≤ p.length + B)) ∧
      (∀ q, (∃ ext, q = p ++ ext) → q.getLast? = some e →
        List.Chain' (fun x y => y ∈ adj x) q → q.Nodup → q.length ≤ p.length + B →
        (visit n p found).length < MAX_PATHS → q ∈ visit n p found)) :
    ∀ (ns : List Str) (n : Str) (p : List Str) (found : List (List Str)),
    (∀ x ∈ ns, x ∈ adj n) → p.head? = some s → p.getLast? = some n →
    List.Chain' (fun x y => y ∈ adj x) p → p.Nodup →
    (∃ tail, dfsFold visit p ns found = found ++ tail) ∧
    (found.length ≤ MAX_PATHS → (dfsFold visit p ns found).length ≤ MAX_PATHS) ∧
    (∀ q ∈ dfsFold visit p ns found, q ∈ found ∨
      (q.head? = some s ∧ q.getLast? = some e ∧
        List.Chain' (fun x y => y ∈ adj x) q ∧ q.Nodup ∧ q.length ≤ p.length + B + 1)) ∧
    (∀ q nb ext, q = p ++ nb :: ext → nb ∈ ns → q.getLast? = some e →
      List.Chain' (fun x y => y ∈ adj x) q → q.Nodup →
      q.length ≤ p.length + B + 1 →
      (dfsFold visit p ns found).length < MAX_PATHS →
      q ∈ dfsFold visit p ns found) := by
  intro ns
  induction ns with
  | nil =>
    intro n p found _ _ _ _ _
    refine ⟨⟨[], by simp [dfsFold]⟩, fun h => by simpa [dfsFold] using h,
      fun q hq => Or.inl (by simpa [dfsFold] using hq), ?_⟩
    intro q nb ext _ hnb
    exact absurd hnb (List.not_mem_nil nb)
  | cons nb rest ih =>
    intro n p found hns hh hl hc hnd
    have hnsrest : ∀ x ∈ rest, x ∈ adj n := fun x hx => hns x (List.mem_cons_of_mem nb hx)
    by_cases hnb : nb ∈ p
    · have hrun : dfsFold visit p (nb :: rest) found =
          dfsFold visit p rest found := by
        rw [dfsFold, if_pos hnb]
      obtain ⟨h1, h2, h3, h4⟩ := ih n p found hnsrest hh hl hc hnd
      rw [hrun]
      refine ⟨h1, h2, h3, ?_⟩
      intro q x ext hq hx hql hqc hqnd hqlen hcnt
      rcases List.mem_cons.mp hx with rfl | hx
      · exfalso
        subst hq
        rw [List.nodup_append] at hqnd
        exact hqnd.2.2 hnb (List.mem_cons_self x ext)
      · exact h4 q x ext hq hx hql hqc hqnd hqlen hcnt
    · have hpne : p ≠ [] := by rintro rfl; simp at hh
      have hrun : dfsFold visit p (nb :: rest) found =
          dfsFold visit p rest (visit nb (p ++ [nb]) found) := by
        rw [dfsFold, if_neg hnb]
      have hh' : (p ++ [nb]).head? = some s := by rw [List.head?_append, hh]; rfl
      have hl' : (p ++ [nb]).getLast? = some nb := List.getLast?_concat p
      have hc' : List.Chain' (fun x y => y ∈ adj x) (p ++ [nb]) := by
        refine List.chain'_append.mpr ⟨hc, List.chain'_singleton nb, ?_⟩
        intro u hu w hw
        rw [hl] at hu
        have hu' : n = u := by simpa using hu
        have hw' : nb = w := by simpa using hw
        subst hu'; subst hw'
        exact hns nb (List.mem_cons_self nb rest)
      have hnd' : (p ++ [nb]).Nodup := by
        rw [List.nodup_append]
        exact ⟨hnd, List.nodup_singleton nb,
          fun u hu hux => hnb ((List.mem_singleton.mp hux) ▸ hu)⟩
      obtain ⟨hV1, hV2, hV3, hV4⟩ := hV nb (p ++ [nb]) found hh' hl' hc' hnd'
      obtain ⟨hN1, hN2, hN3, hN4⟩ :=
        ih n p (visit nb (p ++ [nb]) found) hnsrest hh hl hc hnd
      rw [hrun]
      obtain ⟨t1, ht1⟩ := hV1
      obtain ⟨t2, ht2⟩ := hN1
      refine ⟨⟨t1 ++ t2, by rw [ht2, ht1, List.append_assoc]⟩,
        fun hcnt => hN2 (hV2 hcnt), ?_, ?_⟩
      · intro q hq
        rcases hN3 q hq with hq1 | ⟨hq1, hq2, hq3, hq4, hq5⟩
        · rcases hV3 q hq1 with hq2 | ⟨hq2, hq3, hq4, hq5, hq6⟩
          · exact Or.inl hq2
          · refine Or.inr ⟨hq2, hq3, hq4, hq5, ?_⟩
            rw [List.length_append, List.length_singleton] at hq6
            omega
        · exact Or.inr ⟨hq1, hq2, hq3, hq4, hq5⟩
      · intro q x ext hq hx hql hqc hqnd hqlen hcnt
        rcases List.mem_cons.mp hx with rfl | hx
        · have hf1lt : (visit x (p ++ [x]) found).length < MAX_PATHS := by
            rw [ht2] at hcnt
            rw [List.length_append] at hcnt
            omega
          have hqmem : q ∈ visit x (p ++ [x]) found := by
            refine hV4 q ⟨ext, by rw [hq, List.append_assoc]; rfl⟩ hql hqc hqnd ?_ hf1lt
            rw [List.length_append, List.length_singleton]
            subst hq
            rw [List.length_append] at hqlen ⊢
            simp only [List.length_cons] at hqlen ⊢
            omega
          rw [ht2]
          exact List.mem_append.mpr (Or.inl hqmem)
        · exact hN4 q x ext hq hx hql hqc hqnd hqlen hcnt

theorem dfsVisit_full {adj : Str → List Str} {e n : Str} {p : List Str}
    {found : List (List Str)} (fuel : Nat) (h : MAX_PATHS ≤ found.length) :
    dfsVisit adj e fuel n p found = found := by
  unfold dfsVisit
  rw [if_pos h]

theorem dfsVisit_at_end {adj : Str → List Str} {e : Str} {p : List Str}
    {found : List (List Str)} (fuel : Nat) (h : ¬ MAX_PATHS ≤ found.length) :
    dfsVisit adj e fuel e p found = found ++ [p] := by
  unfold dfsVisit
  rw [if_neg h, if_pos rfl]

theorem dfsVisit_zero {adj : Str → List Str} {e n : Str} {p : List Str}
    {found : List (List Str)} (h : ¬ MAX_PATHS ≤ found.length) (hne : n ≠ e) :
    dfsVisit adj e 0 n p found = found := by
  unfold dfsVisit
  rw [if_neg h, if_neg hne]

theorem dfsVisit_succ {adj : Str → List Str} {e n : Str} {p : List Str}
    {found : List (List Str)} (fuel : Nat) (h : ¬ MAX_PATHS ≤ found.length)
    (hne : n ≠ e) :
    dfsVisit adj e (fuel + 1) n p found =
      dfsFold (fun nb pth fnd => dfsVisit adj e fuel nb pth fnd) p (adj n) found := by
  conv_lhs => unfold dfsVisit
  rw [if_neg h, if_neg hne]

theorem dfsVisit_spec (adj : Str → List Str) (s e : Str) :
    ∀ fuel, DfsVisitSpec adj s e fuel := by
  intro fuel
  induction fuel with
  | zero =>
    intro n p found hh hl hc hnd
    by_cases h50 : MAX_PATHS ≤ found.length
    · rw [dfsVisit_full 0 h50]
      refine ⟨⟨[], by simp⟩, fun h => h, fun q hq => Or.inl hq, ?_⟩
      intro q _ _ _ _ _ hcnt
      exfalso; omega
    · by_cases hne : n = e
      · subst hne
        rw [dfsVisit_at_end 0 h50]
        refine ⟨⟨[p], rfl⟩, by simp; omega, ?_, ?_⟩
        · intro q hq
          rcases List.mem_append.mp hq with hq | hq
          · exact Or.inl hq
          · have hq' := List.mem_singleton.mp hq
            subst hq'
            exact Or.inr ⟨hh, hl, hc, hnd, Nat.le_add_right _ _⟩
        · rintro q ⟨ext, rfl⟩ hql hqc hqnd _ _
          cases ext with
          | nil =>
            rw [List.append_nil]
            exact List.mem_append.mpr (Or.inr (List.mem_singleton.mpr rfl))
          | cons x ext' =>
            exfalso
            have hne' : (x :: ext') ≠ [] := List.cons_ne_nil x ext'
            rw [List.getLast?_append_of_ne_nil p hne'] at hql
            have hep : n ∈ p := List.mem_of_mem_getLast? hl
            have heext : n ∈ x :: ext' := List.mem_of_mem_getLast? hql
            rw [List.nodup_append] at hqnd
            exact hqnd.2.2 hep heext
      · rw [dfsVisit_zero h50 hne]
        refine ⟨⟨[], by simp⟩, fun h => h, fun q hq => Or.inl hq, ?_⟩
        rintro q ⟨ext, rfl⟩ hql _ _ hqlen _
        exfalso
        have hext : ext = [] := by
          rw [List.length_append] at hqlen
          have : ext.length = 0 := by omega
          exact List.length_eq_zero.mp this
        subst hext
        rw [List.append_nil] at hql
        rw [hl] at hql
        exact hne (Option.some.inj hql)
  | succ fuel ih =>
    intro n p found hh hl hc hnd
    by_cases h50 : MAX_PATHS ≤ found.length
    · rw [dfsVisit_full (fuel + 1) h50]
      refine ⟨⟨[], by simp⟩, fun h => h, fun q hq => Or.inl hq, ?_⟩
      intro q _ _ _ _ _ hcnt
      exfalso; omega
    · by_cases hne : n = e
      · subst hne
        rw [dfsVisit_at_end (fuel + 1) h50]
        refine ⟨⟨[p], rfl⟩, by simp; omega, ?_, ?_⟩
        · intro q hq
          rcases List.mem_append.mp hq with hq | hq
          · exact Or.inl hq
          · have hq' := List.mem_singleton.mp hq
            subst hq'
            exact Or.inr ⟨hh, hl, hc, hnd, Nat.le_add_right _ _⟩
        · rintro q ⟨ext, rfl⟩ hql hqc hqnd _ _
          cases ext with
          | nil =>
            rw [List.append_nil]
            exact List.mem_append.mpr (Or.inr (List.mem_singleton.mpr rfl))
          | cons x ext' =>
            exfalso
            have hne' : (x :: ext') ≠ [] := List.cons_ne_nil x ext'
            rw [List.getLast?_append_of_ne_nil p hne'] at hql
            have hep : n ∈ p := List.mem_of_mem_getLast? hl
            have heext : n ∈ x :: ext' := List.mem_of_mem_getLast? hql
            rw [List.nodup_append] at hqnd
            exact hqnd.2.2 hep heext
      · rw [dfsVisit_succ fuel h50 hne]
        obtain ⟨hN1, hN2, hN3, hN4⟩ := dfsFold_spec adj s e fuel
          (fun nb pth fnd => dfsVisit adj e fuel nb pth fnd)
          (fun n p found hh hl hc hnd => ih n p found hh hl hc hnd)
          (adj n) n p found (fun x hx => hx) hh hl hc hnd
        refine ⟨hN1, hN2, hN3, ?_⟩
        rintro q ⟨ext, rfl⟩ hql hqc hqnd hqlen hcnt
        cases ext with
        | nil =>
          exfalso
          rw [List.append_nil] at hql
          rw [hl] at hql
          exact hne (Option.some.inj hql)
        | cons x ext' =>
          have hxadj : x ∈ adj n := by
            obtain ⟨_, _, hrel⟩ := List.chain'_append.mp hqc
            have := hrel n (by rw [hl]; rfl) x rfl
            exact this
          exact hN4 (p ++ x :: ext') x ext' rfl hxadj hql hqc hqnd hqlen hcnt

/-- C1: over resolvable endpoints, the all-paths operation returns only
simple paths (no repeated component) from the resolved start to the resolved
end of at most `MAX_DEPTH` (20) components, collects at most `MAX_PATHS`
(50) of them, returns all of them whenever the collection stayed below the
bound, and the `/find_path` route reports
`truncated = (count_found >= 50)`. -/
theorem find_all_paths_bounded (g : GraphData) (a b s e : Str)
    (hs : resolve_component_id a g = some s) (he : resolve_component_id b g = some e) :
    (∀ p ∈ find_all_paths a b g, ValidPath g s e p ∧ p.Nodup ∧ p.length ≤ MAX_DEPTH) ∧
    (find_all_paths a b g).length ≤ MAX_PATHS ∧
    ((find_all_paths a b g).length < MAX_PATHS →
      ∀ p, ValidPath g s e p → p.Nodup → p.length ≤ MAX_DEPTH →
        p ∈ find_all_paths a b g) ∧
    (find_path_route a b g).truncated =
      decide (MAX_PATHS ≤ (find_all_paths a b g).length) := by
  have hrun : find_all_paths a b g = dfsVisit (neighborsOf g) e (MAX_DEPTH - 1) s [s] [] := by
    unfold find_all_paths
    rw [hs, he]
  obtain ⟨hpre, hcount, hsound, hcomp⟩ := dfsVisit_spec (neighborsOf g) s e
    (MAX_DEPTH - 1) s [s] [] rfl rfl (List.chain'_singleton s) (List.nodup_singleton s)
  refine ⟨?_, ?_, ?_, ?_⟩
  · intro p hp
    rw [hrun] at hp
    rcases hsound p hp with hin | ⟨hh, hl, hc, hnd, hlen⟩
    · exact absurd hin (List.not_mem_nil p)
    · refine ⟨⟨hh, hl, hc.imp (fun u w huw => mem_neighborsOf.mp huw)⟩, hnd, ?_⟩
      simp only [List.length_singleton, MAX_DEPTH] at hlen ⊢
      omega
  · rw [hrun]
    exact hcount (by simp [MAX_PATHS])
  · intro hlt p hvp hnd hdep
    rw [hrun] at hlt ⊢
    obtain ⟨hh, hl, hc⟩ := hvp
    obtain ⟨t, rfl⟩ : ∃ t, p = s :: t := by
      cases p with
      | nil => exact absurd hh (by simp)
      | cons hd t =>
        have : hd = s := by simpa using hh
        exact ⟨t, by rw [this]⟩
    refine hcomp (s :: t) ⟨t, rfl⟩ hl
      (hc.imp (fun u w huw => mem_neighborsOf.mpr huw)) hnd ?_ hlt
    simp only [List.length_singleton, List.length_cons, MAX_DEPTH] at hdep ⊢
    omega
  · unfold find_path_route
    by_cases hpaths : find_all_paths a b g = []
    · rw [if_pos hpaths, hpaths]
      rfl
    · rw [if_neg hpaths]
      rfl

/-- C1 witness: in the four-node cycle the route finds both simple paths
between pump and boiler, within the bounds and untruncated. -/
theorem find_all_paths_bounded_witness :
    ((["comp_1".toList, "comp_2".toList, "comp_3".toList, "comp_4".toList] ∈
        find_all_paths "pump_1".toList "BOILER_1".toList gT →
      ValidPath gT "comp_1".toList "comp_4".toList
          ["comp_1".toList, "comp_2".toList, "comp_3".toList, "comp_4".toList] ∧
        (["comp_1".toList, "comp_2".toList, "comp_3".toList, "comp_4".toList] :
          List Str).Nodup ∧
        (["comp_1".toList, "comp_2".toList, "comp_3".toList, "comp_4".toList] :
          List Str).length ≤ MAX_DEPTH)) ∧
    (find_all_paths "pump_1".toList "BOILER_1".toList gT).length ≤ MAX_PATHS ∧
    ["comp_1".toList, "comp_4".toList] ∈ find_all_paths "pump_1".toList "BOILER_1".toList gT ∧
    (find_path_route "pump_1".toList "BOILER_1".toList gT).truncated =
      decide (MAX_PATHS ≤ (find_all_paths "pump_1".toList "BOILER_1".toList gT).length) := by
  have h := find_all_paths_bounded gT "pump_1".toList "BOILER_1".toList
    "comp_1".toList "comp_4".toList (by decide) (by decide)
  refine ⟨fun hmem => h.1 _ hmem, h.2.1, ?_, h.2.2.2⟩
  exact h.2.2.1 (by decide) ["comp_1".toList, "comp_4".toList]
    ⟨rfl, rfl, List.chain'_pair.mpr (by decide)⟩ (by decide) (by decide)
